import Mathlib

/-!
Verification development for the EcoAnalyzer repository.

The TypeScript sources are shallowly embedded as executable Lean
definitions:

* `ExtractedData`, `SustainabilityMetrics` mirror
  `src/types/sustainability.ts`.
* `processDocument` and `extractKeyFields` mirror
  `src/utils/ocrProcessor.ts`.  The two `Math.random()` draws a branch of
  `processDocument` may consume are passed explicitly as rationals
  `r1 r2`, and `new Date().toISOString().split('T')[0]` is passed as the
  string `today`.  The four JavaScript regexes of `extractKeyFields` are
  embedded as executable leftmost-match scanners over `List Char`
  (`scanFirst` tries every start position from the left, exactly as a
  non-global non-anchored JS regex does).
* `computeMetrics` mirrors the metrics block of `handleFileUpload` in
  `src/App.tsx`.
* The `EmissionCalculator` utility and the Python backend orchestrator
  are called from the sources but their code is absent; the definitions
  marked "Modelled from the spec" embed them from the specification text.
-/

namespace EcoAnalyzer

/-! ## Character classes (JS regex classes, ASCII semantics of `\d`, `\s`, `\w`) -/

/-- The characters of the ECMA-262 `\s` class (WhiteSpace and
LineTerminator): ASCII whitespace, no-break space, Ogham space mark, the
U+2000-U+200A spaces, line and paragraph separators, narrow no-break space,
medium mathematical space, ideographic space, and the zero-width no-break
space. -/
def wsChars : List Char :=
  [' ', '\t', '\n', '\r', '\x0b', '\x0c',
   '\u00A0', '\u1680',
   '\u2000', '\u2001', '\u2002', '\u2003', '\u2004', '\u2005', '\u2006',
   '\u2007', '\u2008', '\u2009', '\u200A',
   '\u2028', '\u2029', '\u202F', '\u205F', '\u3000', '\uFEFF']

/-- JS `\s` whitespace class. -/
def isSpaceCh (c : Char) : Bool := wsChars.contains c

/-- JS `\w` word class `[A-Za-z0-9_]`, used by the `\b` boundary in the water
pattern. -/
def isWordCh (c : Char) : Bool :=
  c.isAlpha || c.isDigit || c == '_'

/-- Lower-casing a character sequence; models the `/i` regex flag and
`String.prototype.toLowerCase` (ASCII range). -/
def lowers (l : List Char) : List Char := l.map Char.toLower

/-- Substring containment, models JS `String.prototype.includes`. -/
def containsSub : List Char → List Char → Bool
  | s@(_ :: t), sub => sub.isPrefixOf s || containsSub t sub
  | [], sub => sub.isEmpty

/-! ## Numerals -/

/-- Value of a digit string. -/
def digitsVal (l : List Char) : ℕ := l.foldl (fun n c => 10 * n + (c.toNat - 48)) 0

/-- Value of a numeral split into integer digits `d` and an optional
fractional part `f` (either `[]` or `'.' :: fractional digits`). -/
def numValue (d f : List Char) : ℚ :=
  (digitsVal d : ℚ) +
    match f with
    | [] => 0
    | _ :: fd => (digitsVal fd : ℚ) / 10 ^ fd.length

/-- `parseFloat` restricted to the numeral shapes the capture groups produce:
leading digits, optionally `'.'` and further digits. -/
def parseNumeral (l : List Char) : ℚ :=
  let d := l.takeWhile Char.isDigit
  match l.dropWhile Char.isDigit with
  | c :: fd =>
    if c = '.' then numValue d ('.' :: fd.takeWhile Char.isDigit) else numValue d []
  | [] => numValue d []

/-! ## The four regexes of `extractKeyFields`, as front-anchored matchers

Each `…At l` matcher decides whether the corresponding regex matches at the
start of `l` and returns the text of capture group 1.  `scanFirst` then
produces the leftmost match, as JS `String.prototype.match` does for a
non-global regex.  Greedy sub-matches are embedded by maximal munch; the
only backtracking a JS engine would perform on these patterns that can
change the outcome is the `\d{1,2}` day/month alternatives of the date
pattern, which are embedded explicitly below. -/

/-- The optional fractional part `(?:\.\d+)?` at the front of `l`:
returns (consumed characters, rest). -/
def fracAt (l : List Char) : List Char × List Char :=
  match l with
  | c :: rest =>
    if c = '.' then
      let ds := rest.takeWhile Char.isDigit
      if ds.isEmpty then ([], l) else ('.' :: ds, rest.dropWhile Char.isDigit)
    else ([], l)
  | [] => ([], l)

/-- `(?:kwh|kw|units?)` with `/i` succeeds at `l` iff `kw` or `unit` is a
(case-insensitive) prefix of `l` (`kwh` implies the `kw` case, `units`
implies the `unit` case). -/
def energyUnitAt (l : List Char) : Bool :=
  ['k', 'w'].isPrefixOf (lowers l) || ['u', 'n', 'i', 't'].isPrefixOf (lowers l)

/-- `/(\d+(?:\.\d+)?)\s*(?:kwh|kw|units?)/i` at the front of `l`;
returns capture group 1. -/
def energyAt (l : List Char) : Option (List Char) :=
  let d := l.takeWhile Char.isDigit
  if d.isEmpty then none
  else
    let (f, r2) := fracAt (l.dropWhile Char.isDigit)
    if energyUnitAt (r2.dropWhile isSpaceCh) then some (d ++ f) else none

/-- `(?:litres?|liters?|l\b)` with `/i` at the front of `l`. -/
def waterUnitAt (l : List Char) : Bool :=
  ['l', 'i', 't', 'r', 'e'].isPrefixOf (lowers l) ||
  ['l', 'i', 't', 'e', 'r'].isPrefixOf (lowers l) ||
  (match l with
   | c :: rest =>
     c.toLower == 'l' &&
       (match rest with
        | [] => true
        | c2 :: _ => !(isWordCh c2))
   | [] => false)

/-- `/(\d+(?:\.\d+)?)\s*(?:litres?|liters?|l\b)/i` at the front of `l`. -/
def waterAt (l : List Char) : Option (List Char) :=
  let d := l.takeWhile Char.isDigit
  if d.isEmpty then none
  else
    let (f, r2) := fracAt (l.dropWhile Char.isDigit)
    if waterUnitAt (r2.dropWhile isSpaceCh) then some (d ++ f) else none

/-- The currency marker `(?:₹|rs\.?|inr)` with `/i` at the front of `l`;
returns the rest after the marker. -/
def markerAt (l : List Char) : Option (List Char) :=
  match l with
  | c :: rest =>
    if c = '₹' then some rest
    else if ['r', 's'].isPrefixOf (lowers l) then
      match l.drop 2 with
      | c2 :: rest2 => if c2 = '.' then some rest2 else some (c2 :: rest2)
      | [] => some []
    else if ['i', 'n', 'r'].isPrefixOf (lowers l) then some (l.drop 3)
    else none
  | [] => none

/-- `(?:,\d+)*` at the front of `l`, maximal: returns (consumed, rest).
The fuel argument is an upper bound on recursion depth; `l.length`
always suffices. -/
def groupsAux : ℕ → List Char → List Char × List Char
  | 0, l => ([], l)
  | Nat.succ fuel, l =>
    match l with
    | c :: rest =>
      if c = ',' then
        let ds := rest.takeWhile Char.isDigit
        if ds.isEmpty then ([], l)
        else
          let (gs, r) := groupsAux fuel (rest.dropWhile Char.isDigit)
          (',' :: ds ++ gs, r)
      else ([], l)
    | [] => ([], l)

/-- The amount numeral `(\d+(?:,\d+)*(?:\.\d+)?)` at the front of `l`;
returns capture group 1. -/
def numTokenAt (l : List Char) : Option (List Char) :=
  let d := l.takeWhile Char.isDigit
  if d.isEmpty then none
  else
    let (gs, r2) := groupsAux l.length (l.dropWhile Char.isDigit)
    let (f, _) := fracAt r2
    some (d ++ gs ++ f)

/-- `/(?:₹|rs\.?|inr)\s*(\d+(?:,\d+)*(?:\.\d+)?)/i` at the front of `l`. -/
def amountAt (l : List Char) : Option (List Char) :=
  match markerAt l with
  | none => none
  | some r1 => numTokenAt (r1.dropWhile isSpaceCh)

/-- The date separator class `[\/\-]`. -/
def isSep (c : Char) : Bool := c == '/' || c == '-'

/-- `\d{2,4}` at the front of `l`, greedy. -/
def yearAt (l : List Char) : Option (List Char) :=
  let ds := (l.takeWhile Char.isDigit).take 4
  if 2 ≤ ds.length then some ds else none

/-- `[\/\-]\d{2,4}` at the front of `l`. -/
def sepYearAt (l : List Char) : Option (List Char) :=
  match l with
  | s :: r => if isSep s then (yearAt r).map (fun y => s :: y) else none
  | [] => none

/-- `\d{1,2}[\/\-]\d{2,4}` at the front of `l`, with the greedy-then-backtrack
two-digit/one-digit alternatives of `\d{1,2}` made explicit. -/
def monthYearAt (l : List Char) : Option (List Char) :=
  match l with
  | a :: rest =>
    if a.isDigit then
      let two : Option (List Char) :=
        match rest with
        | b :: rest2 =>
          if b.isDigit then (sepYearAt rest2).map (fun c => a :: b :: c) else none
        | [] => none
      match two with
      | some cap => some cap
      | none => (sepYearAt rest).map (fun c => a :: c)
    else none
  | [] => none

/-- `[\/\-]\d{1,2}[\/\-]\d{2,4}` at the front of `l`. -/
def sepMonthYearAt (l : List Char) : Option (List Char) :=
  match l with
  | s :: r => if isSep s then (monthYearAt r).map (fun c => s :: c) else none
  | [] => none

/-- `/(\d{1,2}[\/\-]\d{1,2}[\/\-]\d{2,4})/` at the front of `l`. -/
def dateAt (l : List Char) : Option (List Char) :=
  match l with
  | a :: rest =>
    if a.isDigit then
      let two : Option (List Char) :=
        match rest with
        | b :: rest2 =>
          if b.isDigit then (sepMonthYearAt rest2).map (fun c => a :: b :: c) else none
        | [] => none
      match two with
      | some cap => some cap
      | none => (sepMonthYearAt rest).map (fun c => a :: c)
    else none
  | [] => none

/-- Leftmost match: try the front-anchored matcher at each start position
from the left, as JS `String.prototype.match` does for a non-global,
non-anchored regex. -/
def scanFirst (m : List Char → Option (List Char)) : List Char → Option (List Char)
  | [] => none
  | c :: rest =>
    match m (c :: rest) with
    | some cap => some cap
    | none => scanFirst m rest

/-! ## Data model (`src/types/sustainability.ts`) -/

/-- The `billType` union of the `ExtractedData` interface. -/
inductive BillType
  | electricity
  | water
  | fuel
  | waste
  | other
deriving DecidableEq, Repr

/-- The `ExtractedData` interface: `billType` is required, every other field
is optional (`?` in TypeScript, `Option` here; `none` models the key being
absent from the produced object). -/
structure ExtractedData where
  energyUsage : Option ℚ := none
  waterConsumption : Option ℚ := none
  fuelConsumption : Option ℚ := none
  wasteGeneration : Option ℚ := none
  amount : Option ℚ := none
  billDate : Option String := none
  vendor : Option String := none
  billType : BillType
deriving DecidableEq, Repr

/-- `Partial<ExtractedData>`: every field optional, including `billType`. -/
structure PartialExtractedData where
  energyUsage : Option ℚ := none
  waterConsumption : Option ℚ := none
  fuelConsumption : Option ℚ := none
  wasteGeneration : Option ℚ := none
  amount : Option ℚ := none
  billDate : Option String := none
  vendor : Option String := none
  billType : Option BillType := none
deriving DecidableEq, Repr

/-- The keys present on the JS object an `ExtractedData` value stands for
(an optional field's key is present exactly when the field was set). -/
def ExtractedData.fieldKeys (e : ExtractedData) : List String :=
  ["billType"] ++
    (if e.energyUsage.isSome then ["energyUsage"] else []) ++
    (if e.waterConsumption.isSome then ["waterConsumption"] else []) ++
    (if e.fuelConsumption.isSome then ["fuelConsumption"] else []) ++
    (if e.wasteGeneration.isSome then ["wasteGeneration"] else []) ++
    (if e.amount.isSome then ["amount"] else []) ++
    (if e.billDate.isSome then ["billDate"] else []) ++
    (if e.vendor.isSome then ["vendor"] else [])

/-! ## `OCRProcessor` (`src/utils/ocrProcessor.ts`) -/

/-- `OCRProcessor.processDocument`.  The branch taken consumes up to two
`Math.random()` draws, passed here as `r1 r2` (each in `[0,1)` at run time);
`today` is the ISO date string.  The file-size read is dead code and the
2-second delay is timing only; both are dropped. -/
def processDocument (fileName : String) (r1 r2 : ℚ) (today : String) : ExtractedData :=
  let fn := lowers fileName.data
  if containsSub fn "electricity".data || containsSub fn "power".data ||
      containsSub fn "mseb".data then
    { billType := .electricity
      energyUsage := some ((⌊r1 * 500⌋ + 200 : ℤ) : ℚ)
      amount := some ((⌊r2 * 5000⌋ + 2000 : ℤ) : ℚ)
      billDate := some today
      vendor := some "Maharashtra State Electricity Board" }
  else if containsSub fn "water".data || containsSub fn "municipal".data then
    { billType := .water
      waterConsumption := some ((⌊r1 * 10000⌋ + 5000 : ℤ) : ℚ)
      amount := some ((⌊r2 * 1500⌋ + 500 : ℤ) : ℚ)
      billDate := some today
      vendor := some "Municipal Water Department" }
  else if containsSub fn "fuel".data || containsSub fn "petrol".data ||
      containsSub fn "diesel".data then
    { billType := .fuel
      fuelConsumption := some ((⌊r1 * 100⌋ + 50 : ℤ) : ℚ)
      amount := some ((⌊r2 * 8000⌋ + 4000 : ℤ) : ℚ)
      billDate := some today
      vendor := some "Indian Oil Corporation" }
  else
    { billType := .other
      amount := some ((⌊r1 * 3000⌋ + 1000 : ℤ) : ℚ)
      billDate := some today
      vendor := some "Unknown Vendor" }

/-- `OCRProcessor.extractKeyFields`. -/
def extractKeyFields (text : String) : PartialExtractedData :=
  let t := text.data
  { energyUsage := (scanFirst energyAt t).map parseNumeral
    waterConsumption := (scanFirst waterAt t).map parseNumeral
    amount := (scanFirst amountAt t).map (fun cap => parseNumeral (cap.filter (fun c => c != ',')))
    billDate := (scanFirst dateAt t).map (fun cap => String.mk cap) }

/-! ## Bill classification (the keyword rules of `processDocument`) -/

/-- The ordered keyword rules of `processDocument`, as a classifier over the
lower-cased filename: electricity/power/mseb, then water/municipal, then
fuel/petrol/diesel, else `other`. -/
def classifyBill (fileName : String) : BillType :=
  let fn := lowers fileName.data
  if containsSub fn "electricity".data || containsSub fn "power".data ||
      containsSub fn "mseb".data then .electricity
  else if containsSub fn "water".data || containsSub fn "municipal".data then .water
  else if containsSub fn "fuel".data || containsSub fn "petrol".data ||
      containsSub fn "diesel".data then .fuel
  else .other

/-! ## The document-extraction orchestrator (modelled from the spec)

The repository's real text-based document processing is the Python backend's
`/process-document` endpoint (`backend/app.py`); only its README and the
front-end mock are in the sources.  The definitions below embed it from the
specification: section 4.3 (classifier first, then the pattern extractor
scoped to the fields relevant to the bill type, confidence = 0.5 baseline
plus a fixed increment per extracted expected field, capped at 1), section
4.2 (vendor aliases), and the README's reference example.  The increment is
0.1, the value that realises the documented reference response
(`confidence = 0.9` with four of four expected fields extracted). -/

/-- Modelled from the spec: the `ExtractedDocument` of the data model
(section 3), with its required `confidence`. -/
structure ExtractedDocument where
  energyUsage : Option ℚ := none
  waterConsumption : Option ℚ := none
  fuelConsumption : Option ℚ := none
  wasteGeneration : Option ℚ := none
  amount : Option ℚ := none
  billDate : Option String := none
  vendor : Option String := none
  billType : BillType
  confidence : ℚ
deriving DecidableEq, Repr

/-- Modelled from the spec: the vendor alias table of section 4.2, with the
canonical names the sources and README use. -/
def vendorAliases : List (String × BillType × String) :=
  [("mseb", .electricity, "Maharashtra State Electricity Board"),
   ("bescom", .electricity, "BESCOM"),
   ("municipal", .water, "Municipal Water Department"),
   ("ioc", .fuel, "Indian Oil Corporation")]

/-- Modelled from the spec: vendor resolution within the candidate category
implied by the bill type; absent when no alias matches. -/
def resolveVendor (bt : BillType) (fileName : String) : Option String :=
  let fn := lowers fileName.data
  (vendorAliases.find? (fun a => decide (a.2.1 = bt) && containsSub fn a.1.data)).map
    (fun a => a.2.2)

/-- Modelled from the spec: the confidence formula of section 4.3 —
baseline 0.5, a fixed increment of 0.1 per successfully extracted expected
field, capped at 1. -/
def confidenceFor (count : ℕ) : ℚ := min 1 (1 / 2 + (count : ℚ) / 10)

/-- Modelled from the spec: the document-extraction orchestrator of
section 4.3 (`/process-document` of the absent backend).  Classifier first,
extractor scoped to the fields relevant to the bill type, confidence
`min 1 (0.5 + 0.1 * extracted field count)`. -/
def orchestrate (text fileName : String) : ExtractedDocument :=
  let bt := classifyBill fileName
  let p := extractKeyFields text
  let energy := if bt = .electricity then p.energyUsage else none
  let water := if bt = .water then p.waterConsumption else none
  let vend := resolveVendor bt fileName
  let count : ℕ :=
    (if energy.isSome then 1 else 0) + (if water.isSome then 1 else 0) +
    (if p.amount.isSome then 1 else 0) + (if p.billDate.isSome then 1 else 0) +
    (if vend.isSome then 1 else 0)
  { billType := bt
    energyUsage := energy
    waterConsumption := water
    amount := p.amount
    billDate := p.billDate
    vendor := vend
    confidence := confidenceFor count }

/-! ## Emission calculator and ESG scorer (modelled from the spec)

`EmissionCalculator` (`src/utils/emissionCalculator.ts`) is imported and
called by `App.tsx` but its code is absent from the sources; the
definitions below embed it from the specification (sections 4.4, 4.5 and
the factor table of section 6). -/

/-- Modelled from the spec: the emission factor table of section 6, keyed by
the `billType` categories of the data model (`fuel` uses the petrol
factor). -/
def emissionFactor : BillType → ℚ
  | .electricity => 82 / 100
  | .water => 3 / 10000
  | .fuel => 231 / 100
  | .waste => 1 / 2
  | .other => 0

/-- Modelled from the spec: one document's emissions in kg CO2e — the
populated quantity field relevant to its category times that category's
factor (section 4.4); `other` contributes zero. -/
def docEmission (d : ExtractedData) : ℚ :=
  match d.billType with
  | .electricity => emissionFactor .electricity * d.energyUsage.getD 0
  | .water => emissionFactor .water * d.waterConsumption.getD 0
  | .fuel => emissionFactor .fuel * d.fuelConsumption.getD 0
  | .waste => emissionFactor .waste * d.wasteGeneration.getD 0
  | .other => 0

/-- Modelled from the spec: `EmissionCalculator.calculateCarbonFootprint` —
total batch emissions in tonnes CO2e (section 4.4, units per section 6). -/
def calculateCarbonFootprint (docs : List ExtractedData) : ℚ :=
  (docs.map docEmission).sum / 1000

/-- Modelled from the spec: the per-category `breakdown` mapping of
section 4.4, as a function from category to its summed contribution
(a category absent from the batch maps to zero). -/
def emissionBreakdown (docs : List ExtractedData) (c : BillType) : ℚ :=
  ((docs.filter (fun d => decide (d.billType = c))).map docEmission).sum

/-- The ESG input record built by `handleFileUpload` in `src/App.tsx`. -/
structure ESGInputs where
  carbonIntensity : ℚ
  energyEfficiency : ℚ
  waterEfficiency : ℚ
  wasteReduction : ℚ
deriving DecidableEq, Repr

/-- Clamp a dimension to `[0, 100]` (section 4.5). -/
def clampDim (x : ℚ) : ℚ := max 0 (min 100 x)

/-- Modelled from the spec: `EmissionCalculator.calculateESGScore` —
each input dimension clamped to `[0,100]`, then a weighted average with
fixed weights summing to 1 (section 4.5; equal weights 1/4). -/
def calculateESGScore (i : ESGInputs) : ℚ :=
  (clampDim i.energyEfficiency + clampDim i.waterEfficiency +
   clampDim i.wasteReduction + clampDim i.carbonIntensity) / 4

/-! ## `SustainabilityMetrics` and the batch computation of `App.tsx` -/

/-- The `trends` record of `SustainabilityMetrics`. -/
structure Trends where
  carbon : List ℚ
  energy : List ℚ
  water : List ℚ
  waste : List ℚ
deriving DecidableEq, Repr

/-- The `SustainabilityMetrics` interface of `src/types/sustainability.ts`. -/
structure SustainabilityMetrics where
  carbonFootprint : ℚ
  energyUsage : ℚ
  waterConsumption : ℚ
  wasteGeneration : ℚ
  esgScore : ℚ
  trends : Trends
deriving DecidableEq, Repr

/-- The metrics block of `handleFileUpload` in `src/App.tsx` (the body of the
`setTimeout` callback, lines 49-73): the batch sums and carbon footprint are
computed and feed the ESG score, but the metrics object itself is built from
fixed demo constants. -/
def computeMetrics (docs : List ExtractedData) : SustainabilityMetrics :=
  let carbonFootprint := calculateCarbonFootprint docs
  let energyUsage := (docs.map (fun d => d.energyUsage.getD 0)).sum
  let waterConsumption := (docs.map (fun d => d.waterConsumption.getD 0)).sum
  let wasteGeneration := (docs.map (fun d => d.wasteGeneration.getD 0)).sum
  let esgScore := calculateESGScore
    { carbonIntensity := carbonFootprint
      energyEfficiency := max 0 (100 - energyUsage / 1000)
      waterEfficiency := max 0 (100 - waterConsumption / 10000)
      wasteReduction := max 0 (100 - wasteGeneration) }
  { carbonFootprint := 24 / 10
    energyUsage := 1250
    waterConsumption := 850
    wasteGeneration := 45
    esgScore := esgScore
    trends :=
      { carbon := [21/10, 23/10, 24/10, 22/10, 24/10]
        energy := [1180, 1200, 1250, 1220, 1250]
        water := [800, 820, 850, 830, 850]
        waste := [42, 44, 45, 43, 45] } }

/-- All populated numeric fields of an `ExtractedData` are non-negative. -/
def nonnegNumeric (e : ExtractedData) : Prop :=
  (∀ v, e.energyUsage = some v → 0 ≤ v) ∧
  (∀ v, e.waterConsumption = some v → 0 ≤ v) ∧
  (∀ v, e.fuelConsumption = some v → 0 ≤ v) ∧
  (∀ v, e.wasteGeneration = some v → 0 ≤ v) ∧
  (∀ v, e.amount = some v → 0 ≤ v)

/-- All populated numeric fields of a `PartialExtractedData` are
non-negative. -/
def nonnegNumericPartial (p : PartialExtractedData) : Prop :=
  (∀ v, p.energyUsage = some v → 0 ≤ v) ∧
  (∀ v, p.waterConsumption = some v → 0 ≤ v) ∧
  (∀ v, p.fuelConsumption = some v → 0 ≤ v) ∧
  (∀ v, p.wasteGeneration = some v → 0 ≤ v) ∧
  (∀ v, p.amount = some v → 0 ≤ v)

/-! ## Declarative characterization of the extraction patterns

These predicates state, independently of the scanners, what it means for the
text to contain an energy-usage or amount pattern at a given position: they
follow the wording of the spec (a number, optionally fractional, followed —
possibly after whitespace — by a unit token; a currency marker followed —
possibly after whitespace — by a number possibly using comma grouping). -/

/-- Every character is a decimal digit. -/
def IsDigits (l : List Char) : Prop := ∀ c ∈ l, c.isDigit = true

/-- Every character is whitespace. -/
def IsSpaces (l : List Char) : Prop := ∀ c ∈ l, isSpaceCh c = true

/-- The list does not start with a digit. -/
def HeadNotDigit (l : List Char) : Prop := ∀ c, l.head? = some c → c.isDigit = false

/-- A fractional part: empty, or a dot followed by at least one digit. -/
def IsFrac (f : List Char) : Prop :=
  f = [] ∨ ∃ fd, f = '.' :: fd ∧ fd ≠ [] ∧ IsDigits fd

/-- One of the energy unit tokens kwh, kw, unit, units (case-insensitive). -/
def IsEnergyUnit (u : List Char) : Prop :=
  lowers u = "kwh".data ∨ lowers u = "kw".data ∨
  lowers u = "unit".data ∨ lowers u = "units".data

/-- The energy pattern matches at the front of `l` with numeric value `v`:
a nonempty digit run, an optional fractional part, whitespace, then a unit
token. -/
def EnergySuff (l : List Char) (v : ℚ) : Prop :=
  ∃ d f w u post, l = d ++ (f ++ (w ++ (u ++ post))) ∧
    d ≠ [] ∧ IsDigits d ∧ IsFrac f ∧ IsSpaces w ∧ IsEnergyUnit u ∧ v = numValue d f

/-- The energy pattern matches in `t` starting at position `i`, with value
`v`. -/
def EnergyMatch (t : List Char) (i : ℕ) (v : ℚ) : Prop :=
  ∃ pre rest, t = pre ++ rest ∧ pre.length = i ∧ EnergySuff rest v

/-- One of the currency markers ₹, Rs, Rs., INR (case-insensitive). -/
def IsMarker (m : List Char) : Prop :=
  lowers m = ['₹'] ∨ lowers m = ['r', 's'] ∨
  lowers m = ['r', 's', '.'] ∨ lowers m = ['i', 'n', 'r']

/-- Comma grouping: a possibly empty sequence of groups, each a comma
followed by at least one digit. -/
inductive CommaGroups : List Char → Prop
  | nil : CommaGroups []
  | cons (ds gs : List Char) : ds ≠ [] → IsDigits ds → CommaGroups gs →
      CommaGroups (',' :: (ds ++ gs))

/-- The list starts with a comma followed by a digit (an extension of a
comma-grouped numeral). -/
def StartsCommaDigit (l : List Char) : Prop :=
  ∃ c rest, l = ',' :: c :: rest ∧ c.isDigit = true

/-- The list starts with a dot followed by a digit (an extension by a
fractional part). -/
def StartsDotDigit (l : List Char) : Prop :=
  ∃ c rest, l = '.' :: c :: rest ∧ c.isDigit = true

/-- The amount pattern matches at the front of `l`: a currency marker,
whitespace, then a number possibly using comma grouping. -/
def AmountSuff (l : List Char) : Prop :=
  ∃ m w d gs f post, l = m ++ (w ++ (d ++ (gs ++ (f ++ post)))) ∧
    IsMarker m ∧ IsSpaces w ∧ d ≠ [] ∧ IsDigits d ∧ CommaGroups gs ∧ IsFrac f

/-- The amount pattern matches at the front of `l` with full (maximal)
numeral `n`: as `AmountSuff`, and the numeral cannot be extended to the
right. -/
def AmountSuffMax (l : List Char) (n : List Char) : Prop :=
  ∃ m w d gs f post, l = m ++ (w ++ (d ++ (gs ++ (f ++ post)))) ∧
    IsMarker m ∧ IsSpaces w ∧ d ≠ [] ∧ IsDigits d ∧ CommaGroups gs ∧ IsFrac f ∧
    n = d ++ (gs ++ f) ∧ HeadNotDigit post ∧
    (f = [] → ¬ StartsCommaDigit post ∧ ¬ StartsDotDigit post)

/-- The amount pattern matches in `t` starting at position `i`. -/
def AmountOccurs (t : List Char) (i : ℕ) : Prop :=
  ∃ pre rest, t = pre ++ rest ∧ pre.length = i ∧ AmountSuff rest

/-- The amount pattern matches in `t` starting at position `i` with maximal
numeral `n`. -/
def AmountMatchMax (t : List Char) (i : ℕ) (n : List Char) : Prop :=
  ∃ pre rest, t = pre ++ rest ∧ pre.length = i ∧ AmountSuffMax rest n

/-! ## Helper lemmas -/

theorem toNat_ofNat_valid (n : ℕ) (h : n.isValidChar) : (Char.ofNat n).toNat = n := by
  unfold Char.ofNat
  rw [dif_pos h]
  rfl

theorem toLower_of_isDigit {c : Char} (h : c.isDigit = true) : c.toLower = c := by
  simp only [Char.isDigit, Bool.and_eq_true, decide_eq_true_eq] at h
  obtain ⟨h1, h2⟩ := h
  have h2' : c.toNat ≤ 57 := h2
  unfold Char.toLower
  rw [if_neg]
  rintro ⟨h3, h4⟩
  omega

theorem toLower_eq_self_or_range (c : Char) :
    c.toLower = c ∨ (97 ≤ c.toLower.toNat ∧ c.toLower.toNat ≤ 122) := by
  by_cases h : c.toNat ≥ 65 ∧ c.toNat ≤ 90
  · right
    have hlow : c.toLower = Char.ofNat (c.toNat + 32) := by
      unfold Char.toLower
      exact if_pos h
    have hv : (Char.ofNat (c.toNat + 32)).toNat = c.toNat + 32 :=
      toNat_ofNat_valid _ (Or.inl (by omega))
    rw [hlow, hv]
    omega
  · left
    unfold Char.toLower
    exact if_neg h

theorem eq_of_toLower_eq_of_big {c x : Char} (h : c.toLower = x)
    (hx : 122 < x.toNat ∨ x.toNat < 97) : c = x := by
  rcases toLower_eq_self_or_range c with h' | ⟨h1, h2⟩
  · rw [← h', h]
  · rw [h] at h1 h2
    omega

theorem mem_wsChars_of_isSpaceCh {c : Char} (h : isSpaceCh c = true) : c ∈ wsChars :=
  List.mem_of_elem_eq_true h

theorem toLower_of_isSpace {c : Char} (h : isSpaceCh c = true) : c.toLower = c := by
  have hm := mem_wsChars_of_isSpaceCh h
  fin_cases hm <;> decide

theorem space_not_digit {c : Char} (h : isSpaceCh c = true) : c.isDigit = false := by
  have hm := mem_wsChars_of_isSpaceCh h
  fin_cases hm <;> decide

theorem digit_not_space {c : Char} (h : c.isDigit = true) : isSpaceCh c = false := by
  cases hs : isSpaceCh c
  · rfl
  · rw [space_not_digit hs] at h
    exact absurd h (by simp)

theorem not_digit_of_toLower {c x : Char} (h : c.toLower = x) (hx : x.isDigit = false) :
    c.isDigit = false := by
  cases hd : c.isDigit
  · rfl
  · have hc : c = x := by rw [← h, toLower_of_isDigit hd]
    rw [hc] at hd
    rw [hd] at hx
    exact hx

theorem not_space_of_toLower {c x : Char} (h : c.toLower = x) (hx : isSpaceCh x = false) :
    isSpaceCh c = false := by
  cases hs : isSpaceCh c
  · rfl
  · have hc : c = x := by rw [← h, toLower_of_isSpace hs]
    rw [hc] at hs
    rw [hs] at hx
    exact hx

theorem ne_of_toLower_fixed {c x y : Char} (h : c.toLower = x) (hy : y.toLower = y)
    (hne : x ≠ y) : c ≠ y :=
  fun hcy => hne (by rw [← h, hcy, hy])

theorem takeWhile_append_eq (p : Char → Bool) {d r : List Char}
    (hd : ∀ c ∈ d, p c = true) (hr : ∀ c, r.head? = some c → p c = false) :
    (d ++ r).takeWhile p = d ∧ (d ++ r).dropWhile p = r := by
  induction d with
  | nil =>
    simp only [List.nil_append]
    cases r with
    | nil => simp
    | cons c t =>
      have hc := hr c rfl
      simp [List.takeWhile_cons, List.dropWhile_cons, hc]
  | cons c d' ih =>
    have hc : p c = true := hd c (List.mem_cons_self c d')
    have ih' := ih (fun x hx => hd x (List.mem_cons_of_mem _ hx))
    simp [List.takeWhile_cons, List.dropWhile_cons, hc, ih'.1, ih'.2]

theorem takeWhile_all {p : Char → Bool} {l : List Char} (h : ∀ c ∈ l, p c = true) :
    l.takeWhile p = l ∧ l.dropWhile p = [] := by
  have := takeWhile_append_eq p (r := []) h (fun c hc => by simp at hc)
  simpa using this

theorem head_dropWhile_not (p : Char → Bool) (l : List Char) :
    ∀ c, (l.dropWhile p).head? = some c → p c = false := by
  induction l with
  | nil => intro c hc; simp at hc
  | cons a t ih =>
    intro c hc
    rw [List.dropWhile_cons] at hc
    by_cases ha : p a = true
    · rw [if_pos ha] at hc
      exact ih c hc
    · rw [if_neg ha] at hc
      simp only [List.head?_cons, Option.some.injEq] at hc
      rw [← hc]
      exact Bool.eq_false_iff.mpr ha

theorem map_prefix_split {p l : List Char} (h : p <+: lowers l) :
    ∃ u post, l = u ++ post ∧ lowers u = p := by
  obtain ⟨s, hs⟩ := h
  refine ⟨l.take p.length, l.drop p.length, (List.take_append_drop _ _).symm, ?_⟩
  have hmt : lowers (l.take p.length) = (lowers l).take p.length := List.map_take _ _ _
  rw [hmt, ← hs, List.take_left]

theorem fracAt_sound (l : List Char) :
    l = (fracAt l).1 ++ (fracAt l).2 ∧ IsFrac (fracAt l).1 := by
  cases l with
  | nil => exact ⟨rfl, Or.inl rfl⟩
  | cons c rest =>
    by_cases hc : c = '.'
    · subst hc
      simp only [fracAt, if_pos rfl]
      by_cases hds : (rest.takeWhile Char.isDigit).isEmpty = true
      · rw [if_pos hds]
        exact ⟨rfl, Or.inl rfl⟩
      · rw [if_neg hds]
        refine ⟨?_, Or.inr ⟨_, rfl, ?_, fun x hx => List.mem_takeWhile_imp hx⟩⟩
        · show '.' :: rest = '.' :: rest.takeWhile Char.isDigit ++ rest.dropWhile Char.isDigit
          rw [List.cons_append, List.takeWhile_append_dropWhile]
        · simpa [List.isEmpty_iff] using hds
    · simp only [fracAt, if_neg hc]
      exact ⟨rfl, Or.inl rfl⟩

theorem energyUnitAt_sound {l : List Char} (h : energyUnitAt l = true) :
    ∃ u post, l = u ++ post ∧ IsEnergyUnit u := by
  rw [energyUnitAt, Bool.or_eq_true] at h
  rcases h with h | h
  · obtain ⟨u, post, rfl, hu⟩ := map_prefix_split (List.isPrefixOf_iff_prefix.mp h)
    exact ⟨u, post, rfl, Or.inr (Or.inl hu)⟩
  · obtain ⟨u, post, rfl, hu⟩ := map_prefix_split (List.isPrefixOf_iff_prefix.mp h)
    exact ⟨u, post, rfl, Or.inr (Or.inr (Or.inl hu))⟩

theorem energyAt_sound {l cap : List Char} (h : energyAt l = some cap) :
    ∃ d f w u post, l = d ++ (f ++ (w ++ (u ++ post))) ∧
      d ≠ [] ∧ IsDigits d ∧ IsFrac f ∧ IsSpaces w ∧ IsEnergyUnit u ∧ cap = d ++ f := by
  rw [energyAt] at h
  by_cases hd : (l.takeWhile Char.isDigit).isEmpty = true
  · rw [if_pos hd] at h
    exact absurd h (by simp)
  · rw [if_neg hd] at h
    rcases hp : fracAt (l.dropWhile Char.isDigit) with ⟨f, r2⟩
    rw [hp] at h
    simp only at h
    by_cases hu : energyUnitAt (r2.dropWhile isSpaceCh) = true
    · rw [if_pos hu] at h
      obtain ⟨u, post, hr3, huu⟩ := energyUnitAt_sound hu
      have hfr := fracAt_sound (l.dropWhile Char.isDigit)
      rw [hp] at hfr
      simp only at hfr
      refine ⟨l.takeWhile Char.isDigit, f, r2.takeWhile isSpaceCh, u, post, ?_, ?_, ?_, hfr.2,
        fun x hx => List.mem_takeWhile_imp hx, huu, (Option.some.inj h).symm⟩
      · conv_lhs => rw [← List.takeWhile_append_dropWhile (p := Char.isDigit) (l := l)]
        rw [hfr.1]
        congr 1
        congr 1
        rw [← hr3, List.takeWhile_append_dropWhile]
      · simpa [List.isEmpty_iff] using hd
      · exact fun x hx => List.mem_takeWhile_imp hx
    · rw [if_neg hu] at h
      exact absurd h (by simp)

theorem parseNumeral_eq_numValue {d f : List Char} (hd : IsDigits d)
    (hf : IsFrac f) : parseNumeral (d ++ f) = numValue d f := by
  have hhead : ∀ c, f.head? = some c → Char.isDigit c = false := by
    rcases hf with rfl | ⟨fd, rfl, hfd, hdig⟩
    · intro c hc
      simp at hc
    · intro c hc
      simp only [List.head?_cons, Option.some.injEq] at hc
      rw [← hc]
      decide
  obtain ⟨ht, hdrop⟩ := takeWhile_append_eq Char.isDigit hd hhead
  rw [parseNumeral]
  simp only [ht, hdrop]
  rcases hf with rfl | ⟨fd, rfl, hfd, hdig⟩
  · rfl
  · dsimp only
    rw [if_pos rfl, (takeWhile_all hdig).1]

theorem scanFirst_some_iff {m : List Char → Option (List Char)} (hnil : m [] = none)
    (t cap : List Char) :
    scanFirst m t = some cap ↔
      ∃ i, m (t.drop i) = some cap ∧ ∀ j < i, m (t.drop j) = none := by
  induction t with
  | nil =>
    simp only [scanFirst]
    constructor
    · intro h
      exact absurd h (by simp)
    · rintro ⟨i, hi, _⟩
      rw [List.drop_nil, hnil] at hi
      exact absurd hi (by simp)
  | cons c rest ih =>
    rw [scanFirst]
    cases hm : m (c :: rest) with
    | some x =>
      constructor
      · intro h
        refine ⟨0, ?_, fun j hj => absurd hj (by omega)⟩
        rw [List.drop_zero, hm]
        exact h
      · rintro ⟨i, hi, hmin⟩
        cases i with
        | zero =>
          rw [List.drop_zero, hm] at hi
          exact hi
        | succ i' =>
          have h0 := hmin 0 (Nat.succ_pos _)
          rw [List.drop_zero, hm] at h0
          exact absurd h0 (by simp)
    | none =>
      rw [ih]
      constructor
      · rintro ⟨i, hi, hmin⟩
        refine ⟨i + 1, by simpa using hi, fun j hj => ?_⟩
        cases j with
        | zero => simpa using hm
        | succ j' =>
          have := hmin j' (by omega)
          simpa using this
      · rintro ⟨i, hi, hmin⟩
        cases i with
        | zero =>
          rw [List.drop_zero, hm] at hi
          exact absurd hi (by simp)
        | succ i' =>
          refine ⟨i', by simpa using hi, fun j hj => ?_⟩
          have := hmin (j + 1) (by omega)
          simpa using this

theorem scanFirst_none_iff {m : List Char → Option (List Char)} (hnil : m [] = none)
    (t : List Char) :
    scanFirst m t = none ↔ ∀ i, m (t.drop i) = none := by
  induction t with
  | nil =>
    constructor
    · intro _ i
      rw [List.drop_nil, hnil]
    · intro _
      rw [scanFirst]
  | cons c rest ih =>
    rw [scanFirst]
    cases hm : m (c :: rest) with
    | some x =>
      constructor
      · intro h
        exact absurd h (by simp)
      · intro h
        have := h 0
        rw [List.drop_zero, hm] at this
        exact absurd this (by simp)
    | none =>
      rw [ih]
      constructor
      · intro h i
        cases i with
        | zero => simpa using hm
        | succ i' => simpa using h i'
      · intro h i
        have := h (i + 1)
        simpa using this

theorem unit_head {u : List Char} (hu : IsEnergyUnit u) :
    ∃ cu u', u = cu :: u' ∧ (cu.toLower = 'k' ∨ cu.toLower = 'u') := by
  rcases hu with h | h | h | h <;>
    (cases u with
     | nil => exact absurd h (by simp [lowers])
     | cons cu u' =>
       rw [lowers, List.map_cons] at h
       refine ⟨cu, u', rfl, ?_⟩
       first
         | exact Or.inl (List.head_eq_of_cons_eq h)
         | exact Or.inr (List.head_eq_of_cons_eq h))

theorem fracAt_not_dot {l : List Char} (h : ∀ c, l.head? = some c → c ≠ '.') :
    fracAt l = ([], l) := by
  cases l with
  | nil => rfl
  | cons c rest => simp [fracAt, if_neg (h c rfl)]

theorem energyUnitAt_complete {u : List Char} (post : List Char) (hu : IsEnergyUnit u) :
    energyUnitAt (u ++ post) = true := by
  rw [energyUnitAt, Bool.or_eq_true]
  have hl : lowers (u ++ post) = lowers u ++ lowers post := List.map_append _ _ _
  rcases hu with h | h | h | h
  · exact Or.inl (List.isPrefixOf_iff_prefix.mpr
      ⟨'h' :: lowers post, by rw [hl, h]; rfl⟩)
  · exact Or.inl (List.isPrefixOf_iff_prefix.mpr
      ⟨lowers post, by rw [hl, h]⟩)
  · exact Or.inr (List.isPrefixOf_iff_prefix.mpr
      ⟨lowers post, by rw [hl, h]⟩)
  · exact Or.inr (List.isPrefixOf_iff_prefix.mpr
      ⟨'s' :: lowers post, by rw [hl, h]; rfl⟩)

theorem energyAt_complete {d f w u post : List Char}
    (hne : d ≠ []) (hd : IsDigits d) (hf : IsFrac f) (hw : IsSpaces w)
    (hu : IsEnergyUnit u) :
    energyAt (d ++ (f ++ (w ++ (u ++ post)))) = some (d ++ f) := by
  obtain ⟨cu, u', rfl, hcu⟩ := unit_head hu
  have hcu_digit : cu.isDigit = false := by
    rcases hcu with h | h
    · exact not_digit_of_toLower h (by decide)
    · exact not_digit_of_toLower h (by decide)
  have hcu_space : isSpaceCh cu = false := by
    rcases hcu with h | h
    · exact not_space_of_toLower h (by decide)
    · exact not_space_of_toLower h (by decide)
  have hcu_dot : cu ≠ '.' := by
    rcases hcu with h | h
    · exact ne_of_toLower_fixed h (by decide) (by decide)
    · exact ne_of_toLower_fixed h (by decide) (by decide)
  -- the character after the digit run is not a digit
  have hhead : ∀ c, (f ++ (w ++ (cu :: u' ++ post))).head? = some c → c.isDigit = false := by
    rcases hf with rfl | ⟨fd, rfl, hfd, hdig⟩
    · cases w with
      | nil =>
        intro c hc
        simp only [List.nil_append, List.cons_append, List.head?_cons,
          Option.some.injEq] at hc
        rw [← hc]
        exact hcu_digit
      | cons c0 w' =>
        intro c hc
        simp only [List.nil_append, List.cons_append, List.head?_cons,
          Option.some.injEq] at hc
        rw [← hc]
        exact space_not_digit (hw c0 (List.mem_cons_self _ _))
    · intro c hc
      simp only [List.cons_append, List.head?_cons, Option.some.injEq] at hc
      rw [← hc]
      decide
  obtain ⟨ht, hdr⟩ := takeWhile_append_eq Char.isDigit hd hhead
  -- whitespace is followed by the unit character, which isn't whitespace
  have hwdrop := takeWhile_append_eq isSpaceCh hw
    (r := cu :: u' ++ post)
    (fun c hc => by
      simp only [List.cons_append, List.head?_cons, Option.some.injEq] at hc
      rw [← hc]
      exact hcu_space)
  have hfr : fracAt (f ++ (w ++ (cu :: u' ++ post))) = (f, w ++ (cu :: u' ++ post)) := by
    rcases hf with rfl | ⟨fd, rfl, hfd, hdig⟩
    · rw [List.nil_append]
      apply fracAt_not_dot
      cases w with
      | nil =>
        intro c hc
        simp only [List.nil_append, List.cons_append, List.head?_cons,
          Option.some.injEq] at hc
        rw [← hc]
        exact hcu_dot
      | cons c0 w' =>
        intro c hc
        simp only [List.cons_append, List.head?_cons, Option.some.injEq] at hc
        rw [← hc]
        intro hdot
        have := hw c0 (List.mem_cons_self _ _)
        rw [hdot] at this
        exact absurd this (by decide)
    · have hfhead : ∀ c, (w ++ (cu :: u' ++ post)).head? = some c → c.isDigit = false := by
        cases w with
        | nil =>
          intro c hc
          simp only [List.nil_append, List.cons_append, List.head?_cons,
            Option.some.injEq] at hc
          rw [← hc]
          exact hcu_digit
        | cons c0 w' =>
          intro c hc
          simp only [List.cons_append, List.head?_cons, Option.some.injEq] at hc
          rw [← hc]
          exact space_not_digit (hw c0 (List.mem_cons_self _ _))
      obtain ⟨hft, hfd2⟩ := takeWhile_append_eq Char.isDigit hdig hfhead
      rw [List.cons_append]
      simp only [fracAt]
      rw [if_pos trivial, hft, hfd2, if_neg (by simp [List.isEmpty_iff, hfd])]
  simp only [energyAt]
  rw [ht, hdr, if_neg (by simp [List.isEmpty_iff, hne]), hfr]
  dsimp only
  rw [hwdrop.2, if_pos (energyUnitAt_complete post hu)]

theorem energySuff_run {l : List Char} {v : ℚ} (h : EnergySuff l v) :
    ∃ cap, energyAt l = some cap ∧ parseNumeral cap = v := by
  obtain ⟨d, f, w, u, post, rfl, hne, hd, hf, hw, hu, rfl⟩ := h
  exact ⟨d ++ f, energyAt_complete hne hd hf hw hu, parseNumeral_eq_numValue hd hf⟩

theorem energyAt_suff {l cap : List Char} (h : energyAt l = some cap) :
    EnergySuff l (parseNumeral cap) := by
  obtain ⟨d, f, w, u, post, rfl, hne, hd, hf, hw, hu, rfl⟩ := energyAt_sound h
  exact ⟨d, f, w, u, post, rfl, hne, hd, hf, hw, hu,
    parseNumeral_eq_numValue hd hf⟩

theorem energyAt_nil : energyAt [] = none := rfl

theorem energyMatch_iff_drop {t : List Char} {i : ℕ} {v : ℚ} :
    EnergyMatch t i v ↔ i ≤ t.length ∧ EnergySuff (t.drop i) v := by
  constructor
  · rintro ⟨pre, rest, rfl, rfl, hs⟩
    refine ⟨by simp, ?_⟩
    rw [List.drop_left]
    exact hs
  · rintro ⟨hi, hs⟩
    exact ⟨t.take i, t.drop i, (List.take_append_drop _ _).symm,
      by rw [List.length_take]; exact min_eq_left hi, hs⟩

theorem lowers_eq_nil {m : List Char} (h : lowers m = []) : m = [] := by
  cases m with
  | nil => rfl
  | cons c m' => simp [lowers] at h

theorem lowers_eq_cons {m : List Char} {x : Char} {xs : List Char}
    (h : lowers m = x :: xs) :
    ∃ c m', m = c :: m' ∧ c.toLower = x ∧ lowers m' = xs := by
  cases m with
  | nil => simp [lowers] at h
  | cons c m' =>
    rw [lowers, List.map_cons] at h
    exact ⟨c, m', rfl, List.head_eq_of_cons_eq h, List.tail_eq_of_cons_eq h⟩

theorem ws_or_digit_ne_dot {c : Char} (h : isSpaceCh c = true ∨ c.isDigit = true) :
    c ≠ '.' := by
  rintro rfl
  rcases h with h | h <;> exact absurd h (by decide)

theorem commaGroups_head {gs : List Char} (h : CommaGroups gs) :
    gs = [] ∨ ∃ t, gs = ',' :: t := by
  cases h with
  | nil => exact Or.inl rfl
  | cons ds gs' _ _ _ => exact Or.inr ⟨_, rfl⟩

theorem markerAt_sound {l r : List Char} (h : markerAt l = some r) :
    ∃ m, l = m ++ r ∧ IsMarker m := by
  cases l with
  | nil => exact absurd h (by simp [markerAt])
  | cons c rest =>
    rw [markerAt] at h
    by_cases hc : c = '₹'
    · rw [if_pos hc] at h
      obtain rfl : rest = r := Option.some.inj h
      subst hc
      exact ⟨['₹'], rfl, Or.inl rfl⟩
    · rw [if_neg hc] at h
      by_cases hrs : (['r', 's'].isPrefixOf (lowers (c :: rest))) = true
      · rw [if_pos hrs] at h
        obtain ⟨u, post, hl, hu⟩ := map_prefix_split (List.isPrefixOf_iff_prefix.mp hrs)
        have hulen : u.length = 2 := by
          have := congrArg List.length hu
          simpa [lowers] using this
        have hdrop : (c :: rest).drop 2 = post := by
          rw [hl, ← hulen, List.drop_left]
        rw [hdrop] at h
        cases post with
        | nil =>
          obtain rfl : ([] : List Char) = r := Option.some.inj h
          refine ⟨u, by simpa using hl, Or.inr (Or.inl hu)⟩
        | cons c2 rest2 =>
          dsimp only at h
          by_cases hc2 : c2 = '.'
          · rw [if_pos hc2] at h
            obtain rfl : rest2 = r := Option.some.inj h
            subst hc2
            refine ⟨u ++ ['.'], by rw [hl]; simp, Or.inr (Or.inr (Or.inl ?_))⟩
            rw [lowers, List.map_append, ← lowers, hu]
            rfl
          · rw [if_neg hc2] at h
            obtain rfl : c2 :: rest2 = r := Option.some.inj h
            exact ⟨u, hl, Or.inr (Or.inl hu)⟩
      · rw [if_neg hrs] at h
        by_cases hinr : (['i', 'n', 'r'].isPrefixOf (lowers (c :: rest))) = true
        · rw [if_pos hinr] at h
          obtain ⟨u, post, hl, hu⟩ := map_prefix_split (List.isPrefixOf_iff_prefix.mp hinr)
          have hulen : u.length = 3 := by
            have := congrArg List.length hu
            simpa [lowers] using this
          have hdrop : (c :: rest).drop 3 = post := by
            rw [hl, ← hulen, List.drop_left]
          rw [hdrop] at h
          obtain rfl : post = r := Option.some.inj h
          exact ⟨u, hl, Or.inr (Or.inr (Or.inr hu))⟩
        · rw [if_neg hinr] at h
          exact absurd h (by simp)

theorem markerAt_complete {m rest : List Char} (hm : IsMarker m)
    (hrest : ∀ c, rest.head? = some c → isSpaceCh c = true ∨ c.isDigit = true) :
    markerAt (m ++ rest) = some rest := by
  rcases hm with h | h | h | h
  · obtain ⟨c, m', rfl, hc, hm'⟩ := lowers_eq_cons h
    obtain rfl := lowers_eq_nil hm'
    obtain rfl : c = '₹' := eq_of_toLower_eq_of_big hc (by decide)
    rw [List.cons_append, List.nil_append, markerAt, if_pos rfl]
  · obtain ⟨c1, m1, rfl, hc1, h1⟩ := lowers_eq_cons h
    obtain ⟨c2, m2, rfl, hc2, h2⟩ := lowers_eq_cons h1
    obtain rfl := lowers_eq_nil h2
    rw [List.cons_append, List.cons_append, List.nil_append, markerAt]
    rw [if_neg (ne_of_toLower_fixed hc1 (by decide) (by decide))]
    rw [if_pos]
    · rw [show (c1 :: c2 :: rest).drop 2 = rest from rfl]
      cases rest with
      | nil => rfl
      | cons c3 rest3 =>
        dsimp only
        rw [if_neg (ws_or_digit_ne_dot (hrest c3 rfl))]
    · apply List.isPrefixOf_iff_prefix.mpr
      refine ⟨lowers rest, ?_⟩
      rw [show lowers (c1 :: c2 :: rest) = c1.toLower :: c2.toLower :: lowers rest from rfl,
        hc1, hc2]
      rfl
  · obtain ⟨c1, m1, rfl, hc1, h1⟩ := lowers_eq_cons h
    obtain ⟨c2, m2, rfl, hc2, h2⟩ := lowers_eq_cons h1
    obtain ⟨c3, m3, rfl, hc3, h3⟩ := lowers_eq_cons h2
    obtain rfl := lowers_eq_nil h3
    obtain rfl : c3 = '.' := eq_of_toLower_eq_of_big hc3 (by decide)
    rw [List.cons_append, List.cons_append, List.cons_append, List.nil_append, markerAt]
    rw [if_neg (ne_of_toLower_fixed hc1 (by decide) (by decide))]
    rw [if_pos]
    · rw [show (c1 :: c2 :: '.' :: rest).drop 2 = '.' :: rest from rfl]
      dsimp only
      rw [if_pos rfl]
    · apply List.isPrefixOf_iff_prefix.mpr
      refine ⟨'.' :: lowers rest, ?_⟩
      rw [show lowers (c1 :: c2 :: '.' :: rest)
          = c1.toLower :: c2.toLower :: '.'.toLower :: lowers rest from rfl, hc1, hc2]
      rfl
  · obtain ⟨c1, m1, rfl, hc1, h1⟩ := lowers_eq_cons h
    obtain ⟨c2, m2, rfl, hc2, h2⟩ := lowers_eq_cons h1
    obtain ⟨c3, m3, rfl, hc3, h3⟩ := lowers_eq_cons h2
    obtain rfl := lowers_eq_nil h3
    rw [List.cons_append, List.cons_append, List.cons_append, List.nil_append, markerAt]
    rw [if_neg (ne_of_toLower_fixed hc1 (by decide) (by decide))]
    rw [if_neg, if_pos]
    · rfl
    · apply List.isPrefixOf_iff_prefix.mpr
      refine ⟨lowers rest, ?_⟩
      rw [show lowers (c1 :: c2 :: c3 :: rest)
          = c1.toLower :: c2.toLower :: c3.toLower :: lowers rest from rfl, hc1, hc2, hc3]
      rfl
    · rw [show lowers (c1 :: c2 :: c3 :: rest)
          = c1.toLower :: c2.toLower :: c3.toLower :: lowers rest from rfl, hc1]
      simp [List.isPrefixOf]

theorem groupsAux_split (fuel : ℕ) :
    ∀ l : List Char,
      l = (groupsAux fuel l).1 ++ (groupsAux fuel l).2 ∧ CommaGroups (groupsAux fuel l).1 := by
  induction fuel with
  | zero => exact fun l => ⟨rfl, CommaGroups.nil⟩
  | succ fuel ih =>
    intro l
    cases l with
    | nil => exact ⟨rfl, CommaGroups.nil⟩
    | cons c rest =>
      simp only [groupsAux]
      by_cases hc : c = ','
      · rw [if_pos hc]
        by_cases hds : (rest.takeWhile Char.isDigit).isEmpty = true
        · rw [if_pos hds]
          exact ⟨rfl, CommaGroups.nil⟩
        · rw [if_neg hds]
          have hrec := ih (rest.dropWhile Char.isDigit)
          rcases hgr : groupsAux fuel (rest.dropWhile Char.isDigit) with ⟨gs, r⟩
          rw [hgr] at hrec
          dsimp only
          dsimp only at hrec
          subst hc
          constructor
          · have hjoin : List.takeWhile Char.isDigit rest ++ (gs ++ r) = rest := by
              rw [← hrec.1, List.takeWhile_append_dropWhile]
            conv_lhs => rw [← hjoin]
            simp [List.append_assoc]
          · exact CommaGroups.cons _ _ (by simpa [List.isEmpty_iff] using hds)
              (fun x hx => List.mem_takeWhile_imp hx) hrec.2
      · rw [if_neg hc]
        exact ⟨rfl, CommaGroups.nil⟩

theorem groupsAux_complete {gs : List Char} (hgs : CommaGroups gs) :
    ∀ (fuel : ℕ) (rest : List Char), (gs ++ rest).length ≤ fuel →
      (∀ c, rest.head? = some c → c.isDigit = false) → ¬ StartsCommaDigit rest →
      groupsAux fuel (gs ++ rest) = (gs, rest) := by
  induction hgs with
  | nil =>
    intro fuel rest hlen hhead hscd
    rw [List.nil_append] at hlen ⊢
    cases fuel with
    | zero => rfl
    | succ fuel' =>
      cases rest with
      | nil => rfl
      | cons c r =>
        simp only [groupsAux]
        by_cases hc : c = ','
        · rw [if_pos hc]
          have hds : (r.takeWhile Char.isDigit).isEmpty = true := by
            cases r with
            | nil => rfl
            | cons c' r' =>
              rw [List.takeWhile_cons]
              by_cases hdig : c'.isDigit = true
              · exact absurd ⟨c', r', by rw [hc], hdig⟩ hscd
              · simp [hdig]
          rw [if_pos hds]
        · rw [if_neg hc]
  | cons ds gs' hne hdig hgs' ih =>
    intro fuel rest hlen hhead hscd
    cases fuel with
    | zero =>
      exfalso
      simp [List.length_append] at hlen
    | succ fuel' =>
      rw [List.cons_append]
      simp only [groupsAux]
      rw [if_pos trivial]
      have hdshead : ∀ c, ((gs' ++ rest) : List Char).head? = some c → c.isDigit = false := by
        rcases commaGroups_head hgs' with rfl | ⟨t, rfl⟩
        · rw [List.nil_append]
          exact hhead
        · intro c hc
          rw [List.cons_append, List.head?_cons, Option.some_inj] at hc
          rw [← hc]
          decide
      obtain ⟨hdt, hdd⟩ := takeWhile_append_eq Char.isDigit (d := ds) (r := gs' ++ rest)
        hdig hdshead
      rw [List.append_assoc, hdt, hdd]
      rw [if_neg (by simp [List.isEmpty_iff, hne])]
      have hrec := ih fuel' rest (by simp [List.length_append] at hlen ⊢; omega) hhead hscd
      rw [hrec]
      simp

theorem fracAt_max_empty {l : List Char} (h : ¬ StartsDotDigit l) : fracAt l = ([], l) := by
  cases l with
  | nil => rfl
  | cons c rest =>
    by_cases hc : c = '.'
    · subst hc
      simp only [fracAt]
      rw [if_pos trivial]
      have hds : (rest.takeWhile Char.isDigit).isEmpty = true := by
        cases rest with
        | nil => rfl
        | cons c' r' =>
          rw [List.takeWhile_cons]
          by_cases hdig : c'.isDigit = true
          · exact absurd ⟨c', r', rfl, hdig⟩ h
          · simp [hdig]
      rw [if_pos hds]
    · simp only [fracAt]
      rw [if_neg hc]

theorem fracAt_frac {fd post : List Char} (hfd : fd ≠ []) (hdig : IsDigits fd)
    (hpost : HeadNotDigit post) : fracAt ('.' :: (fd ++ post)) = ('.' :: fd, post) := by
  obtain ⟨hft, hfd2⟩ := takeWhile_append_eq Char.isDigit hdig hpost
  simp only [fracAt]
  rw [if_pos trivial, hft, hfd2, if_neg (by simp [List.isEmpty_iff, hfd])]

theorem fracAt_snd_head (l : List Char) (h : (fracAt l).1 ≠ []) :
    HeadNotDigit (fracAt l).2 := by
  cases l with
  | nil => exact absurd rfl h
  | cons c rest =>
    by_cases hc : c = '.'
    · subst hc
      simp only [fracAt] at h ⊢
      rw [if_pos trivial] at h ⊢
      by_cases hds : (rest.takeWhile Char.isDigit).isEmpty = true
      · rw [if_pos hds] at h
        exact absurd rfl h
      · rw [if_neg hds]
        exact head_dropWhile_not _ _
    · simp only [fracAt] at h
      rw [if_neg hc] at h
      exact absurd rfl h

theorem numTokenAt_sound {l cap : List Char} (h : numTokenAt l = some cap) :
    ∃ d gs f rest, l = d ++ (gs ++ (f ++ rest)) ∧ d ≠ [] ∧ IsDigits d ∧
      CommaGroups gs ∧ IsFrac f := by
  rw [numTokenAt] at h
  by_cases hd : (l.takeWhile Char.isDigit).isEmpty = true
  · rw [if_pos hd] at h
    exact absurd h (by simp)
  · rw [if_neg hd] at h
    have hsplit := groupsAux_split l.length (l.dropWhile Char.isDigit)
    rcases hgr : groupsAux l.length (l.dropWhile Char.isDigit) with ⟨gs, r2⟩
    rw [hgr] at hsplit h
    dsimp only at h hsplit
    have hfr := fracAt_sound r2
    rcases hf2 : fracAt r2 with ⟨f, r3⟩
    rw [hf2] at hfr h
    dsimp only at h hfr
    refine ⟨l.takeWhile Char.isDigit, gs, f, r3, ?_,
      by simpa [List.isEmpty_iff] using hd,
      fun x hx => List.mem_takeWhile_imp hx, hsplit.2, hfr.2⟩
    conv_lhs => rw [← List.takeWhile_append_dropWhile (p := Char.isDigit) (l := l)]
    rw [hsplit.1, hfr.1]

theorem numTokenAt_complete {d gs f post : List Char} (hne : d ≠ []) (hd : IsDigits d)
    (hgs : CommaGroups gs) (hf : IsFrac f) (hpost : HeadNotDigit post)
    (hmax : f = [] → ¬ StartsCommaDigit post ∧ ¬ StartsDotDigit post) :
    numTokenAt (d ++ (gs ++ (f ++ post))) = some (d ++ (gs ++ f)) := by
  have hafter : ∀ c, ((gs ++ (f ++ post)) : List Char).head? = some c →
      c.isDigit = false := by
    rcases commaGroups_head hgs with rfl | ⟨t, rfl⟩
    · rw [List.nil_append]
      rcases hf with rfl | ⟨fd, rfl, hfd, hdig⟩
      · rw [List.nil_append]
        exact hpost
      · intro c hc
        rw [List.cons_append, List.head?_cons, Option.some_inj] at hc
        rw [← hc]
        decide
    · intro c hc
      rw [List.cons_append, List.head?_cons, Option.some_inj] at hc
      rw [← hc]
      decide
  obtain ⟨ht, hdr⟩ := takeWhile_append_eq Char.isDigit hd hafter
  rw [numTokenAt, ht, hdr, if_neg (by simp [List.isEmpty_iff, hne])]
  have hglen : ((gs ++ (f ++ post)) : List Char).length
      ≤ (d ++ (gs ++ (f ++ post))).length := by
    simp [List.length_append]
  have hfhead : ∀ c, ((f ++ post) : List Char).head? = some c → c.isDigit = false := by
    rcases hf with rfl | ⟨fd, rfl, hfd, hdig⟩
    · rw [List.nil_append]
      exact hpost
    · intro c hc
      rw [List.cons_append, List.head?_cons, Option.some_inj] at hc
      rw [← hc]
      decide
  have hfscd : ¬ StartsCommaDigit (f ++ post) := by
    rcases hf with rfl | ⟨fd, rfl, hfd, hdig⟩
    · rw [List.nil_append]
      exact (hmax rfl).1
    · rintro ⟨c, rest, heq, hdigc⟩
      rw [List.cons_append] at heq
      exact absurd (List.head_eq_of_cons_eq heq) (by decide)
  rw [groupsAux_complete hgs _ _ hglen hfhead hfscd]
  dsimp only
  have hfr : fracAt (f ++ post) = (f, post) := by
    rcases hf with rfl | ⟨fd, rfl, hfd, hdig⟩
    · rw [List.nil_append]
      exact fracAt_max_empty (hmax rfl).2
    · rw [List.cons_append]
      exact fracAt_frac hfd hdig hpost
  rw [hfr]
  simp [List.append_assoc]

theorem amountAt_sound_suff {l cap : List Char} (h : amountAt l = some cap) :
    AmountSuff l := by
  rw [amountAt] at h
  cases hmk : markerAt l with
  | none =>
    rw [hmk] at h
    exact absurd h (by simp)
  | some r1 =>
    rw [hmk] at h
    obtain ⟨m, rfl, hm⟩ := markerAt_sound hmk
    obtain ⟨d, gs, f, rest, hr1, hdne, hd, hgs, hf⟩ := numTokenAt_sound h
    refine ⟨m, r1.takeWhile isSpaceCh, d, gs, f, rest, ?_, hm,
      fun x hx => List.mem_takeWhile_imp hx, hdne, hd, hgs, hf⟩
    congr 1
    conv_lhs => rw [← List.takeWhile_append_dropWhile (p := isSpaceCh) (l := r1)]
    rw [hr1]

theorem amountSuffMax_run {l n : List Char} (h : AmountSuffMax l n) :
    amountAt l = some n := by
  obtain ⟨m, w, d, gs, f, post, rfl, hm, hw, hdne, hd, hgs, hf, rfl, hpost, hmaxf⟩ := h
  obtain ⟨c0, d', rfl⟩ := List.exists_cons_of_ne_nil hdne
  have hc0 : c0.isDigit = true := hd c0 (List.mem_cons_self _ _)
  have hmark : markerAt (m ++ (w ++ (c0 :: d' ++ (gs ++ (f ++ post)))))
      = some (w ++ (c0 :: d' ++ (gs ++ (f ++ post)))) := markerAt_complete hm
    (by
      intro c hc
      cases w with
      | nil =>
        rw [List.nil_append, List.cons_append, List.head?_cons, Option.some_inj] at hc
        rw [← hc]
        exact Or.inr hc0
      | cons cw w' =>
        rw [List.cons_append, List.head?_cons, Option.some_inj] at hc
        rw [← hc]
        exact Or.inl (hw cw (List.mem_cons_self _ _)))
  rw [amountAt, hmark]
  dsimp only
  have hwd : (w ++ (c0 :: d' ++ (gs ++ (f ++ post)))).dropWhile isSpaceCh
      = c0 :: d' ++ (gs ++ (f ++ post)) := by
    refine (takeWhile_append_eq isSpaceCh hw ?_).2
    intro c hc
    rw [List.cons_append, List.head?_cons, Option.some_inj] at hc
    rw [← hc]
    exact digit_not_space hc0
  rw [hwd]
  exact numTokenAt_complete hdne hd hgs hf hpost hmaxf

theorem amountAt_some_of_suff {l : List Char} (h : AmountSuff l) :
    ∃ cap, amountAt l = some cap := by
  obtain ⟨m, w, d, gs, f, post, rfl, hm, hw, hdne, hd, hgs, hf⟩ := h
  obtain ⟨c0, d', rfl⟩ := List.exists_cons_of_ne_nil hdne
  have hc0 : c0.isDigit = true := hd c0 (List.mem_cons_self _ _)
  have hmark : markerAt (m ++ (w ++ (c0 :: d' ++ (gs ++ (f ++ post)))))
      = some (w ++ (c0 :: d' ++ (gs ++ (f ++ post)))) := markerAt_complete hm
    (by
      intro c hc
      cases w with
      | nil =>
        rw [List.nil_append, List.cons_append, List.head?_cons, Option.some_inj] at hc
        rw [← hc]
        exact Or.inr hc0
      | cons cw w' =>
        rw [List.cons_append, List.head?_cons, Option.some_inj] at hc
        rw [← hc]
        exact Or.inl (hw cw (List.mem_cons_self _ _)))
  rw [amountAt, hmark]
  dsimp only
  have hwd : (w ++ (c0 :: d' ++ (gs ++ (f ++ post)))).dropWhile isSpaceCh
      = c0 :: d' ++ (gs ++ (f ++ post)) := by
    refine (takeWhile_append_eq isSpaceCh hw ?_).2
    intro c hc
    rw [List.cons_append, List.head?_cons, Option.some_inj] at hc
    rw [← hc]
    exact digit_not_space hc0
  rw [hwd]
  rw [numTokenAt]
  rw [if_neg]
  · rcases hgr : groupsAux (c0 :: d' ++ (gs ++ (f ++ post))).length
        ((c0 :: d' ++ (gs ++ (f ++ post))).dropWhile Char.isDigit) with ⟨gs2, r2⟩
    dsimp only
    rcases hf2 : fracAt r2 with ⟨f2, r3⟩
    dsimp only
    exact ⟨_, rfl⟩
  · rw [List.cons_append, List.takeWhile_cons, if_pos hc0]
    simp

theorem amountAt_nil : amountAt [] = none := rfl

theorem amountOccurs_iff_drop {t : List Char} {i : ℕ} :
    AmountOccurs t i ↔ i ≤ t.length ∧ AmountSuff (t.drop i) := by
  constructor
  · rintro ⟨pre, rest, rfl, rfl, hs⟩
    refine ⟨by simp, ?_⟩
    rw [List.drop_left]
    exact hs
  · rintro ⟨hi, hs⟩
    exact ⟨t.take i, t.drop i, (List.take_append_drop _ _).symm,
      by rw [List.length_take]; exact min_eq_left hi, hs⟩

theorem amountMatchMax_iff_drop {t : List Char} {i : ℕ} {n : List Char} :
    AmountMatchMax t i n ↔ i ≤ t.length ∧ AmountSuffMax (t.drop i) n := by
  constructor
  · rintro ⟨pre, rest, rfl, rfl, hs⟩
    refine ⟨by simp, ?_⟩
    rw [List.drop_left]
    exact hs
  · rintro ⟨hi, hs⟩
    exact ⟨t.take i, t.drop i, (List.take_append_drop _ _).symm,
      by rw [List.length_take]; exact min_eq_left hi, hs⟩

theorem clampDim_nonneg (x : ℚ) : 0 ≤ clampDim x := le_max_left 0 _

theorem clampDim_le (x : ℚ) : clampDim x ≤ 100 :=
  max_le (by norm_num) (min_le_left _ _)

theorem clampDim_mono {x y : ℚ} (h : x ≤ y) : clampDim x ≤ clampDim y :=
  max_le_max le_rfl (min_le_min le_rfl h)

theorem clampDim_idem (x : ℚ) : clampDim (clampDim x) = clampDim x := by
  unfold clampDim
  rw [min_eq_right (max_le (by norm_num) (min_le_left _ _)), ← max_assoc, max_self]

theorem confidenceFor_bounds (n : ℕ) : 0 ≤ confidenceFor n ∧ confidenceFor n ≤ 1 :=
  ⟨le_min (by norm_num) (by positivity), min_le_left _ _⟩

theorem numValue_nonneg (d f : List Char) : 0 ≤ numValue d f := by
  cases f <;> simp only [numValue] <;> positivity

theorem parseNumeral_nonneg (l : List Char) : 0 ≤ parseNumeral l := by
  rw [parseNumeral]
  cases hdw : l.dropWhile Char.isDigit with
  | nil => exact numValue_nonneg _ _
  | cons c fd =>
    dsimp only
    split <;> exact numValue_nonneg _ _

theorem opt_nonneg_of (x : ℚ) (h0 : 0 ≤ x) : ∀ v : ℚ, some x = some v → 0 ≤ v :=
  fun _ hv => (Option.some.inj hv) ▸ h0

theorem opt_nonneg_none : ∀ v : ℚ, (none : Option ℚ) = some v → 0 ≤ v :=
  fun _ hv => absurd hv (by simp)

theorem opt_map_nonneg (o : Option (List Char)) (f : List Char → ℚ)
    (hf : ∀ l, 0 ≤ f l) : ∀ v, o.map f = some v → 0 ≤ v := by
  intro v hv
  rcases Option.map_eq_some'.mp hv with ⟨a, _, rfl⟩
  exact hf a

theorem floor_shift_nonneg {r k : ℚ} (hr : 0 ≤ r) (hk : 0 ≤ k) {c : ℤ} (hc : 0 ≤ c) :
    (0 : ℚ) ≤ ((⌊r * k⌋ + c : ℤ) : ℚ) := by
  have h := Int.floor_nonneg.mpr (mul_nonneg hr hk)
  exact_mod_cast Int.add_nonneg h hc

/-! ## Claims -/

/-- C1, counterexample: the document produced by `OCRProcessor.processDocument`
does not carry a `confidence` field at all — here, at the concrete input
`mseb_bill.jpg` — so it cannot carry a required `confidence` in `[0,1]`. -/
theorem claim_C1_counterexample :
    "confidence" ∉ (processDocument "mseb_bill.jpg" 0 0 "2024-11-15").fieldKeys := by
  with_unfolding_all decide

/-- C1 (amended): the front-end `ExtractedData` of `processDocument` has no
`confidence` field; the required-`confidence` contract belongs to the
document-extraction orchestrator (modelled from the spec), whose output
confidence lies in `[0,1]` for every input text and filename. -/
theorem claim_C1_theorem (text fileName : String) :
    0 ≤ (orchestrate text fileName).confidence ∧ (orchestrate text fileName).confidence ≤ 1 :=
  confidenceFor_bounds _

/-- C2, counterexample: on a filename matching no classification keyword,
`processDocument` returns `billType = other` but with `amount`, `billDate`
and `vendor` all populated (mock values), so not every optional field is
absent. -/
theorem claim_C2_counterexample :
    (processDocument "bill.jpg" 0 0 "2024-01-01").billType = BillType.other ∧
    (processDocument "bill.jpg" 0 0 "2024-01-01").amount = some 1000 ∧
    (processDocument "bill.jpg" 0 0 "2024-01-01").billDate = some "2024-01-01" ∧
    (processDocument "bill.jpg" 0 0 "2024-01-01").vendor = some "Unknown Vendor" := by
  refine ⟨?_, ?_, ?_, ?_⟩ <;> with_unfolding_all rfl

/-- C2 (amended): for every input whose lower-cased filename contains none of
the classification keywords, `processDocument` returns `billType = other`
with all four quantity fields absent, but with `amount` (a mock value),
`billDate` and `vendor = "Unknown Vendor"` populated; this is the ordinary
default branch, not an error. -/
theorem claim_C2_theorem (fileName : String) (r1 r2 : ℚ) (today : String)
    (h1 : (containsSub (lowers fileName.data) "electricity".data ||
           containsSub (lowers fileName.data) "power".data ||
           containsSub (lowers fileName.data) "mseb".data) = false)
    (h2 : (containsSub (lowers fileName.data) "water".data ||
           containsSub (lowers fileName.data) "municipal".data) = false)
    (h3 : (containsSub (lowers fileName.data) "fuel".data ||
           containsSub (lowers fileName.data) "petrol".data ||
           containsSub (lowers fileName.data) "diesel".data) = false) :
    processDocument fileName r1 r2 today =
      { billType := .other
        amount := some ((⌊r1 * 3000⌋ + 1000 : ℤ) : ℚ)
        billDate := some today
        vendor := some "Unknown Vendor" } := by
  simp only [processDocument, h1, h2, h3, Bool.false_eq_true, if_false]

/-- Witness for C2: the concrete no-keyword input `bill.jpg`. -/
theorem claim_C2_witness :
    processDocument "bill.jpg" 0 0 "2024-01-01" =
      { billType := .other
        amount := some ((⌊(0 : ℚ) * 3000⌋ + 1000 : ℤ) : ℚ)
        billDate := some "2024-01-01"
        vendor := some "Unknown Vendor" } :=
  claim_C2_theorem "bill.jpg" 0 0 "2024-01-01" (by decide) (by decide) (by decide)

/-- C3: on text containing "245.5 kWh", "Rs. 3,250" and "15/11/2024" with
filename hint "mseb_bill.jpg", the (spec-modelled) document processing yields
billType electricity, energyUsage 245.5, amount 3250, billDate "15/11/2024",
the canonical MSEB vendor name, and confidence 0.9. -/
theorem claim_C3_theorem :
    orchestrate "Usage: 245.5 kWh Amount: Rs. 3,250 Date: 15/11/2024" "mseb_bill.jpg" =
    { billType := .electricity
      energyUsage := some (491 / 2)
      amount := some 3250
      billDate := some "15/11/2024"
      vendor := some "Maharashtra State Electricity Board"
      confidence := 9 / 10 } := by
  with_unfolding_all rfl

/-- C4 (code bug): for the batch of one electricity document with
energyUsage 245.5, the `SustainabilityMetrics` built by `handleFileUpload`
carries the hardcoded demo constant `energyUsage = 1250`, not the batch sum
245.5 that the same code computes and then discards. -/
theorem claim_C4_theorem :
    (computeMetrics [{ billType := .electricity, energyUsage := some (491 / 2) }]).energyUsage
        = 1250 ∧
    (([{ billType := .electricity, energyUsage := some (491 / 2) : ExtractedData }].map
        (fun d => d.energyUsage.getD 0)).sum = 491 / 2) ∧
    (1250 : ℚ) ≠ 491 / 2 :=
  ⟨by with_unfolding_all rfl, by with_unfolding_all rfl, by norm_num⟩

/-- C5: `extractKeyFields` populates energyUsage exactly when the text
contains a number (optionally fractional) followed, possibly after
whitespace, by one of the unit tokens kwh, kw, unit, units
(case-insensitive); the populated value is the numeric value of the first
such match in document order, and with no match the field is omitted. -/
theorem claim_C5_theorem (text : String) :
    ((extractKeyFields text).energyUsage = none ↔
      ¬ ∃ i v, EnergyMatch text.data i v) ∧
    (∀ v : ℚ, (extractKeyFields text).energyUsage = some v ↔
      ∃ i, EnergyMatch text.data i v ∧ ∀ j w, EnergyMatch text.data j w → i ≤ j) := by
  have hproj : (extractKeyFields text).energyUsage
      = (scanFirst energyAt text.data).map parseNumeral := rfl
  constructor
  · rw [hproj, Option.map_eq_none', scanFirst_none_iff rfl]
    constructor
    · rintro hnone ⟨i, v, hm⟩
      rw [energyMatch_iff_drop] at hm
      obtain ⟨cap, hcap, _⟩ := energySuff_run hm.2
      rw [hnone i] at hcap
      exact absurd hcap (by simp)
    · intro hno i
      cases hc : energyAt (text.data.drop i) with
      | none => rfl
      | some cap =>
        exfalso
        apply hno
        have hsuff := energyAt_suff hc
        have hi : i ≤ text.data.length := by
          by_contra hgt
          rw [List.drop_eq_nil_iff.mpr (by omega)] at hc
          rw [energyAt_nil] at hc
          exact absurd hc (by simp)
        exact ⟨i, parseNumeral cap, energyMatch_iff_drop.mpr ⟨hi, hsuff⟩⟩
  · intro v
    rw [hproj, Option.map_eq_some']
    constructor
    · rintro ⟨cap, hscan, hparse⟩
      obtain ⟨i, hi, hmin⟩ := (scanFirst_some_iff rfl text.data cap).mp hscan
      have hsuff := energyAt_suff hi
      rw [hparse] at hsuff
      have hlen : i ≤ text.data.length := by
        by_contra hgt
        rw [List.drop_eq_nil_iff.mpr (by omega)] at hi
        rw [energyAt_nil] at hi
        exact absurd hi (by simp)
      refine ⟨i, energyMatch_iff_drop.mpr ⟨hlen, hsuff⟩, ?_⟩
      intro j w hj
      by_contra hlt
      push_neg at hlt
      rw [energyMatch_iff_drop] at hj
      obtain ⟨cap', hcap', _⟩ := energySuff_run hj.2
      rw [hmin j hlt] at hcap'
      exact absurd hcap' (by simp)
    · rintro ⟨i, hm, hminimal⟩
      rw [energyMatch_iff_drop] at hm
      have hilen := hm.1
      obtain ⟨cap, hcap, hparse⟩ := energySuff_run hm.2
      refine ⟨cap, (scanFirst_some_iff rfl text.data cap).mpr ⟨i, hcap, ?_⟩, hparse⟩
      intro j hj
      cases hc : energyAt (text.data.drop j) with
      | none => rfl
      | some cap' =>
        exfalso
        have hsuff' := energyAt_suff hc
        have hjlen : j ≤ text.data.length := by omega
        have := hminimal j (parseNumeral cap')
          (energyMatch_iff_drop.mpr ⟨hjlen, hsuff'⟩)
        omega

/-- Witness for C5: the concrete text "245.5 kWh" has a (leftmost) energy
match of value 245.5, obtained through the characterization theorem. -/
theorem claim_C5_witness :
    ∃ i, EnergyMatch "245.5 kWh".data i (491 / 2) ∧
      ∀ j w, EnergyMatch "245.5 kWh".data j w → i ≤ j :=
  (( claim_C5_theorem "245.5 kWh").2 (491 / 2)).mp (by with_unfolding_all rfl)

/-- C6: `extractKeyFields` populates amount exactly when the text contains a
currency marker (₹, Rs, Rs., INR, case-insensitive) followed, possibly after
whitespace, by a number possibly using comma grouping; the populated value
is the first-matching (maximal) number parsed after the comma grouping
separators are removed. -/
theorem claim_C6_theorem (text : String) :
    ((extractKeyFields text).amount.isSome = true ↔ ∃ i, AmountOccurs text.data i) ∧
    (∀ i n, AmountMatchMax text.data i n → (∀ j, AmountOccurs text.data j → i ≤ j) →
      (extractKeyFields text).amount
        = some (parseNumeral (n.filter (fun c => c != ',')))) := by
  have hproj : (extractKeyFields text).amount
      = (scanFirst amountAt text.data).map
          (fun cap => parseNumeral (cap.filter (fun c => c != ','))) := rfl
  constructor
  · rw [hproj]
    constructor
    · intro h
      rw [Option.isSome_iff_exists] at h
      obtain ⟨v, hv⟩ := h
      rw [Option.map_eq_some'] at hv
      obtain ⟨cap, hscan, _⟩ := hv
      obtain ⟨i, hi, _⟩ := (scanFirst_some_iff rfl _ _).mp hscan
      have hsuff := amountAt_sound_suff hi
      have hlen : i ≤ text.data.length := by
        by_contra hgt
        rw [List.drop_eq_nil_iff.mpr (by omega)] at hi
        rw [amountAt_nil] at hi
        exact absurd hi (by simp)
      exact ⟨i, amountOccurs_iff_drop.mpr ⟨hlen, hsuff⟩⟩
    · rintro ⟨i, hocc⟩
      rw [amountOccurs_iff_drop] at hocc
      obtain ⟨cap, hcap⟩ := amountAt_some_of_suff hocc.2
      cases hscan : scanFirst amountAt text.data with
      | some c => rfl
      | none =>
        exfalso
        rw [scanFirst_none_iff rfl] at hscan
        rw [hscan i] at hcap
        exact absurd hcap (by simp)
  · intro i n hmax hmin
    rw [hproj]
    rw [amountMatchMax_iff_drop] at hmax
    obtain ⟨hilen, hsuffmax⟩ := hmax
    have hcap : amountAt (text.data.drop i) = some n := amountSuffMax_run hsuffmax
    have hscan : scanFirst amountAt text.data = some n := by
      rw [scanFirst_some_iff rfl]
      refine ⟨i, hcap, fun j hj => ?_⟩
      cases hc : amountAt (text.data.drop j) with
      | none => rfl
      | some cap' =>
        exfalso
        have hsuff' := amountAt_sound_suff hc
        have hjlen : j ≤ text.data.length := by omega
        have := hmin j (amountOccurs_iff_drop.mpr ⟨hjlen, hsuff'⟩)
        omega
    rw [hscan]
    rfl

/-- Witness for C6: on the concrete text "Rs. 3,250" the maximal match at
position 0 is "3,250", and the characterization theorem yields the stripped
parse 3250. -/
theorem claim_C6_witness :
    (extractKeyFields "Rs. 3,250").amount
      = some (parseNumeral ("3,250".data.filter (fun c => c != ','))) := by
  apply ( claim_C6_theorem "Rs. 3,250").2 0 "3,250".data
  · refine ⟨[], "Rs. 3,250".data, rfl, rfl,
      "Rs.".data, [' '], "3".data, ",250".data, [], [], ?_, ?_, ?_, ?_, ?_, ?_, ?_, ?_, ?_, ?_⟩
    · with_unfolding_all rfl
    · exact Or.inr (Or.inr (Or.inl (by with_unfolding_all rfl)))
    · intro c hc
      fin_cases hc <;> decide
    · decide
    · intro c hc
      fin_cases hc <;> decide
    · exact CommaGroups.cons "250".data [] (by decide)
        (by intro c hc; fin_cases hc <;> decide) CommaGroups.nil
    · exact Or.inl rfl
    · with_unfolding_all rfl
    · intro c hc
      simp at hc
    · intro _
      constructor
      · rintro ⟨c, rest, hceq, _⟩
        exact absurd hceq (by simp)
      · rintro ⟨c, rest, hceq, _⟩
        exact absurd hceq (by simp)
  · intro j _
    exact Nat.zero_le j

/-- C7: the (spec-modelled) ESG composite lies in `[0,100]`, depends only on
the inputs clamped to `[0,100]`, and is monotone non-decreasing in each of
the four input dimensions with the others held fixed. -/
theorem claim_C7_theorem (i : ESGInputs) :
    (0 ≤ calculateESGScore i ∧ calculateESGScore i ≤ 100) ∧
    calculateESGScore i =
      calculateESGScore
        { carbonIntensity := clampDim i.carbonIntensity
          energyEfficiency := clampDim i.energyEfficiency
          waterEfficiency := clampDim i.waterEfficiency
          wasteReduction := clampDim i.wasteReduction } ∧
    (∀ x, i.energyEfficiency ≤ x →
      calculateESGScore i ≤ calculateESGScore { i with energyEfficiency := x }) ∧
    (∀ x, i.waterEfficiency ≤ x →
      calculateESGScore i ≤ calculateESGScore { i with waterEfficiency := x }) ∧
    (∀ x, i.wasteReduction ≤ x →
      calculateESGScore i ≤ calculateESGScore { i with wasteReduction := x }) ∧
    (∀ x, i.carbonIntensity ≤ x →
      calculateESGScore i ≤ calculateESGScore { i with carbonIntensity := x }) := by
  obtain ⟨c, e, w, ws⟩ := i
  refine ⟨⟨?_, ?_⟩, ?_, ?_, ?_, ?_, ?_⟩
  · simp only [calculateESGScore]
    have h1 := clampDim_nonneg e
    have h2 := clampDim_nonneg w
    have h3 := clampDim_nonneg ws
    have h4 := clampDim_nonneg c
    linarith
  · simp only [calculateESGScore]
    have h1 := clampDim_le e
    have h2 := clampDim_le w
    have h3 := clampDim_le ws
    have h4 := clampDim_le c
    linarith
  · simp only [calculateESGScore, clampDim_idem]
  all_goals
    intro x h
    simp only [calculateESGScore]
    have := clampDim_mono h
    linarith

/-- Witness for C7: monotonicity exercised at a concrete pair of inputs. -/
theorem claim_C7_witness :
    calculateESGScore ⟨50, 50, 50, 50⟩ ≤ calculateESGScore ⟨50, 60, 50, 50⟩ :=
  (claim_C7_theorem ⟨50, 50, 50, 50⟩).2.2.1 60 (by norm_num)

/-- C8: the (spec-modelled) emission calculator's total and per-category
breakdown are invariant under permutation of the input batch. -/
theorem claim_C8_theorem (l l' : List ExtractedData) (h : l.Perm l') :
    calculateCarbonFootprint l = calculateCarbonFootprint l' ∧
    ∀ c, emissionBreakdown l c = emissionBreakdown l' c := by
  constructor
  · unfold calculateCarbonFootprint
    rw [(h.map docEmission).sum_eq]
  · intro c
    unfold emissionBreakdown
    rw [(((h.filter (fun d => decide (d.billType = c)))).map docEmission).sum_eq]

/-- Witness for C8: a concrete two-document batch and its swap. -/
theorem claim_C8_witness :
    calculateCarbonFootprint
        [{ billType := .electricity, energyUsage := some 100 },
         { billType := .water, waterConsumption := some 2000 }] =
      calculateCarbonFootprint
        [{ billType := .water, waterConsumption := some 2000 },
         { billType := .electricity, energyUsage := some 100 }] ∧
    ∀ c,
      emissionBreakdown
          [{ billType := .electricity, energyUsage := some 100 },
           { billType := .water, waterConsumption := some 2000 }] c =
        emissionBreakdown
          [{ billType := .water, waterConsumption := some 2000 },
           { billType := .electricity, energyUsage := some 100 }] c :=
  claim_C8_theorem _ _ (List.Perm.swap _ _ _)

/-- C9: every numeric field ever populated by `processDocument` (for
non-negative random draws, as `Math.random()` yields) or by
`extractKeyFields` is non-negative. -/
theorem claim_C9_theorem :
    (∀ fileName r1 r2 today, 0 ≤ r1 → 0 ≤ r2 →
      nonnegNumeric (processDocument fileName r1 r2 today)) ∧
    (∀ text, nonnegNumericPartial (extractKeyFields text)) := by
  constructor
  · intro fileName r1 r2 today h1 h2
    simp only [processDocument, nonnegNumeric]
    split_ifs <;>
      refine ⟨?_, ?_, ?_, ?_, ?_⟩ <;> intro v hv <;>
      first
        | exact hv.elim
        | (have h' : _ = v := Option.some.inj hv
           exact h' ▸ floor_shift_nonneg (by assumption) (by norm_num) (by norm_num))
  · intro text
    exact ⟨opt_map_nonneg _ _ parseNumeral_nonneg,
           opt_map_nonneg _ _ parseNumeral_nonneg,
           opt_nonneg_none, opt_nonneg_none,
           opt_map_nonneg _ _ (fun l => parseNumeral_nonneg _)⟩

/-- Witness for C9: the concrete electricity branch at zero random draws. -/
theorem claim_C9_witness :
    nonnegNumeric (processDocument "mseb_bill.jpg" 0 0 "2024-11-15") :=
  claim_C9_theorem.1 "mseb_bill.jpg" 0 0 "2024-11-15" le_rfl le_rfl

/-- C10: `extractKeyFields` populates at most energyUsage, waterConsumption,
amount and billDate; billType, vendor, fuelConsumption and wasteGeneration
are never populated. -/
theorem claim_C10_theorem (text : String) :
    (extractKeyFields text).billType = none ∧ (extractKeyFields text).vendor = none ∧
    (extractKeyFields text).fuelConsumption = none ∧
    (extractKeyFields text).wasteGeneration = none :=
  ⟨rfl, rfl, rfl, rfl⟩

end EcoAnalyzer
